import Mathlib

/-!
Shallow embedding of the practice-session word scheduler from
`src/public/js/practice.js` (class `PracticeSession`).

JavaScript arrays become `List α`; `null`/absent values become `Option α`;
the thrown construction error becomes `Except SessionError`.  The platform
random source (`Math.random()`) is modelled as an arbitrary stream of
natural numbers `rand : Nat → Nat`; the JavaScript expression
`Math.floor(Math.random() * k)`, which produces an arbitrary index in
`[0, k)`, is embedded as `rand i % k` (for `k > 0` this ranges over exactly
the same set of indices).  Each shuffle step `i` uses `rand i`, and the
draw in `getNextWord` uses `rand 0` (the shuffle loop never uses index 0),
so a single arbitrary stream per call covers all possible behaviours of
the original code.
-/

/-- The state of a `PracticeSession` object: fields `allWords`,
`remainingWords`, `wordsSpoken`, `currentWord` of the JavaScript class. -/
structure PracticeSession (α : Type) where
  allWords : List α
  remainingWords : List α
  wordsSpoken : Nat
  currentWord : Option α
deriving Repr, DecidableEq

/-- The error thrown by the constructor
(`throw new Error('Cannot create practice session with empty word list')`),
which the spec names `InvalidSessionConfiguration`. -/
inductive SessionError where
  | invalidSessionConfiguration (msg : String)
deriving Repr, DecidableEq

namespace PracticeSession

/-- One step of the JavaScript destructuring swap
`[shuffled[i], shuffled[j]] = [shuffled[j], shuffled[i]]`:
exchange the elements at positions `i` and `j` (out-of-range indices,
which never occur in the shuffle loop, leave the list unchanged). -/
def listSwap (l : List α) (i j : Nat) : List α :=
  match l[i]?, l[j]? with
  | some a, some b => (l.set i b).set j a
  | _, _ => l

/-- The loop of `shuffle`: `for (let i = shuffled.length - 1; i > 0; i--)`
with body `j = Math.floor(Math.random() * (i + 1)); swap i j`.
`shuffleGo rand k l` runs the loop for `i = k, k-1, ..., 1`. -/
def shuffleGo (rand : Nat → Nat) : Nat → List α → List α
  | 0, l => l
  | Nat.succ k, l => shuffleGo rand k (listSwap l (k + 1) (rand (k + 1) % (k + 2)))

/-- `PracticeSession.shuffle`: Fisher-Yates shuffle of a copy of the array. -/
def shuffle (rand : Nat → Nat) (array : List α) : List α :=
  shuffleGo rand (array.length - 1) array

/-- The constructor, taking the `words` argument as an `Option` so that the
JavaScript guard `!words` (null / undefined argument) is representable:
`none` plays the role of null/undefined. -/
def makeOpt (rand : Nat → Nat) (words : Option (List α)) :
    Except SessionError (PracticeSession α) :=
  match words with
  | none =>
      Except.error (SessionError.invalidSessionConfiguration
        "Cannot create practice session with empty word list")
  | some ws =>
      if ws.length = 0 then
        Except.error (SessionError.invalidSessionConfiguration
          "Cannot create practice session with empty word list")
      else
        Except.ok
          { allWords := ws
            remainingWords := shuffle rand ws
            wordsSpoken := 0
            currentWord := none }

/-- The constructor applied to an actual list argument. -/
def make (rand : Nat → Nat) (words : List α) :
    Except SessionError (PracticeSession α) :=
  makeOpt rand (some words)

/-- `getNextWord`: reshuffle if the pool is empty, then splice out a random
index, increment `wordsSpoken`, record `currentWord`, return the word.
The JavaScript method returns the spliced element, which is `undefined`
only in the unreachable case of an empty `allWords`; the result is an
`Option α` to keep the embedding total. -/
def getNextWord (rand : Nat → Nat) (s : PracticeSession α) :
    Option α × PracticeSession α :=
  let pool := if s.remainingWords.isEmpty then shuffle rand s.allWords
              else s.remainingWords
  let randomIndex := rand 0 % pool.length
  match pool[randomIndex]? with
  | some word =>
      (some word,
        { allWords := s.allWords
          remainingWords := pool.eraseIdx randomIndex
          wordsSpoken := s.wordsSpoken + 1
          currentWord := some word })
  | none =>
      (none,
        { allWords := s.allWords
          remainingWords := pool
          wordsSpoken := s.wordsSpoken + 1
          currentWord := none })

/-- `getTotalWords()`. -/
def getTotalWords (s : PracticeSession α) : Nat :=
  s.allWords.length

/-- `getWordsSpoken()`. -/
def getWordsSpoken (s : PracticeSession α) : Nat :=
  s.wordsSpoken

/-- `getRemainingCount()`. -/
def getRemainingCount (s : PracticeSession α) : Nat :=
  s.remainingWords.length

/-- `getCurrentWord()`: returns `currentWord` and leaves the object as it
was (the method body mutates nothing). -/
def getCurrentWord (s : PracticeSession α) : Option α × PracticeSession α :=
  (s.currentWord, s)

/-- `hasCurrentWord()`: `this.currentWord !== null`. -/
def hasCurrentWord (s : PracticeSession α) : Bool :=
  s.currentWord.isSome

/-- `reset()`. -/
def reset (rand : Nat → Nat) (s : PracticeSession α) : PracticeSession α :=
  { allWords := s.allWords
    remainingWords := shuffle rand s.allWords
    wordsSpoken := 0
    currentWord := none }

/-- Drawing `k` successive words: `drawN rands k s` calls `getNextWord`
`k` times, the `m`-th call using the random stream `rands m`, and collects
the returned words in order. -/
def drawN (rands : Nat → Nat → Nat) : Nat → PracticeSession α →
    List (Option α) × PracticeSession α
  | 0, s => ([], s)
  | Nat.succ k, s =>
      let r := getNextWord (rands 0) s
      let rest := drawN (fun m => rands (m + 1)) k r.2
      (r.1 :: rest.1, rest.2)

/-- Calling `getCurrentWord` `m` times in a row, collecting the results. -/
def repeatN : Nat → PracticeSession α → List (Option α) × PracticeSession α
  | 0, s => ([], s)
  | Nat.succ k, s =>
      let r := getCurrentWord s
      let rest := repeatN k r.2
      (r.1 :: rest.1, rest.2)

/-- The public operations of the scheduler, each mutating operation
carrying its own random stream. -/
inductive Op where
  | next (rand : Nat → Nat)
  | repeatWord
  | resetOp (rand : Nat → Nat)
  | totalWords
  | spoken
  | remainingCount
  | hasCurrent

/-- The state left behind by one operation. -/
def applyOp (op : Op) (s : PracticeSession α) : PracticeSession α :=
  match op with
  | Op.next rand => (getNextWord rand s).2
  | Op.repeatWord => (getCurrentWord s).2
  | Op.resetOp rand => reset rand s
  | Op.totalWords => s
  | Op.spoken => s
  | Op.remainingCount => s
  | Op.hasCurrent => s

/-- The state after a sequence of operations, applied left to right. -/
def applyOps (ops : List Op) (s : PracticeSession α) : PracticeSession α :=
  match ops with
  | [] => s
  | op :: rest => applyOps rest (applyOp op s)

/-- Modelled from the spec (§4.1, shuffle algorithm), for the refinement
claim about `shuffle`: "for an array of length n, iterate index i from n−1
down to 1, draw a uniformly random index j in [0, i], and swap elements i
and j".  `draw i` is the index drawn at step `i`, assumed in `[0, i]`. -/
def fisherYatesSpec (draw : Nat → Nat) : Nat → List α → List α
  | 0, l => l
  | Nat.succ k, l => fisherYatesSpec draw k (listSwap l (k + 1) (draw (k + 1)))

/-- A choice vector in canonical form for a shuffle with loop indices
`1..k`: in range (`c i ≤ i`) at every used index and `0` elsewhere.
`shuffleGo` reads the random stream only through these reduced values;
for a duplicate-free input every target ordering is produced by exactly
one canonical choice vector — the counting form of "each of the n!
orderings is equally probable under a uniform random source". -/
def Canonical (k : Nat) (c : Nat → Nat) : Prop :=
  (∀ i, 1 ≤ i → i ≤ k → c i ≤ i) ∧ (∀ i, i = 0 ∨ k < i → c i = 0)

/-- Whether a `getNextWord` call occurs after the last `reset` in an
operation sequence: the sequence-level shape of the "has a current word"
state flag. -/
def hasNextSinceReset (ops : List Op) : Bool :=
  ops.foldl
    (fun b op =>
      match op with
      | Op.next _ => true
      | Op.resetOp _ => false
      | _ => b)
    false

/-! ### Helper lemmas about `listSwap` -/

theorem cons_set_perm {α : Type} :
    ∀ (t : List α) (m : Nat) (a b : α), t[m]? = some b →
      (b :: t.set m a).Perm (a :: t)
  | [], _, _, _, h => by simp at h
  | x :: t, 0, a, b, h => by
      simp only [List.getElem?_cons_zero, Option.some.injEq] at h
      subst h
      simpa using List.Perm.swap a x t
  | x :: t, Nat.succ m, a, b, h => by
      simp only [List.getElem?_cons_succ] at h
      have ih := cons_set_perm t m a b h
      have h1 : (b :: (x :: t).set (m + 1) a) = b :: x :: t.set m a := by
        simp [List.set_cons_succ]
      rw [h1]
      have h2 : (b :: x :: t.set m a).Perm (x :: b :: t.set m a) :=
        List.Perm.swap x b _
      have h3 : (x :: b :: t.set m a).Perm (x :: a :: t) := ih.cons x
      have h4 : (x :: a :: t).Perm (a :: x :: t) := List.Perm.swap a x t
      exact (h2.trans h3).trans h4

/-- Unfolding equation for `listSwap` at valid indices. -/
theorem listSwap_eq {α : Type} {l : List α} {i j : Nat} {a b : α}
    (hi : l[i]? = some a) (hj : l[j]? = some b) :
    listSwap l i j = (l.set i b).set j a := by
  unfold listSwap
  rw [hi, hj]

theorem listSwap_perm {α : Type} (l : List α) (i j : Nat) :
    (listSwap l i j).Perm l := by
  cases hi : l[i]? with
  | none =>
    have : listSwap l i j = l := by unfold listSwap; rw [hi]
    rw [this]
  | some a =>
    cases hj : l[j]? with
    | none =>
      have : listSwap l i j = l := by unfold listSwap; rw [hi, hj]
      rw [this]
    | some b =>
      rw [listSwap_eq hi hj]
      rcases List.getElem?_eq_some.mp hi with ⟨hil, hia⟩
      rcases List.getElem?_eq_some.mp hj with ⟨hjl, hjb⟩
      by_cases hij : i = j
      · subst hij
        have hab : a = b := by rw [← hia, ← hjb]
        subst hab
        have h1 : l.set i a = l := by
          apply List.ext_getElem?
          intro n
          rw [List.getElem?_set]
          split
          · rename_i hin
            subst hin
            simp [List.getElem?_eq_getElem hil, hia]
          · rfl
        rw [List.set_set, h1]
      · have hj' : (l.set i b)[j]? = some b := by
          rw [List.getElem?_set_ne hij, List.getElem?_eq_getElem hjl, hjb]
        have h1 : (b :: (l.set i b).set j a).Perm (a :: l.set i b) :=
          cons_set_perm (l.set i b) j a b hj'
        have h2 : (a :: l.set i b).Perm (b :: l) :=
          cons_set_perm l i b a (by rw [List.getElem?_eq_getElem hil, hia])
        exact List.Perm.cons_inv (h1.trans h2)

theorem listSwap_length {α : Type} (l : List α) (i j : Nat) :
    (listSwap l i j).length = l.length :=
  (listSwap_perm l i j).length_eq

/-- The element landing at position `i` after swapping `i` and `j`. -/
theorem listSwap_getElem?_left {α : Type} {l : List α} {i j : Nat}
    (hil : i < l.length) (hjl : j < l.length) :
    (listSwap l i j)[i]? = l[j]? := by
  rw [listSwap_eq (List.getElem?_eq_getElem hil) (List.getElem?_eq_getElem hjl)]
  by_cases hij : j = i
  · subst hij
    rw [List.getElem?_set_self (by simpa using hil)]
    exact (List.getElem?_eq_getElem hjl).symm
  · rw [List.getElem?_set_ne hij, List.getElem?_set_self hil,
      List.getElem?_eq_getElem hjl]

/-- Positions other than `i` and `j` are untouched by the swap. -/
theorem listSwap_getElem?_other {α : Type} {l : List α} {i j m : Nat}
    (hmi : m ≠ i) (hmj : m ≠ j) :
    (listSwap l i j)[m]? = l[m]? := by
  cases hi : l[i]? with
  | none =>
    have : listSwap l i j = l := by unfold listSwap; rw [hi]
    rw [this]
  | some a =>
    cases hj : l[j]? with
    | none =>
      have : listSwap l i j = l := by unfold listSwap; rw [hi, hj]
      rw [this]
    | some b =>
      rw [listSwap_eq hi hj, List.getElem?_set_ne (fun h => hmj h.symm),
        List.getElem?_set_ne (fun h => hmi h.symm)]

/-! ### Helper lemmas about `shuffleGo` and `shuffle` -/

theorem shuffleGo_perm {α : Type} (rand : Nat → Nat) :
    ∀ (k : Nat) (l : List α), (shuffleGo rand k l).Perm l
  | 0, l => List.Perm.refl l
  | Nat.succ k, l =>
      (shuffleGo_perm rand k _).trans (listSwap_perm l (k + 1) (rand (k + 1) % (k + 2)))

theorem shuffle_perm {α : Type} (rand : Nat → Nat) (l : List α) :
    (shuffle rand l).Perm l :=
  shuffleGo_perm rand (l.length - 1) l

theorem shuffleGo_length {α : Type} (rand : Nat → Nat) (k : Nat) (l : List α) :
    (shuffleGo rand k l).length = l.length :=
  (shuffleGo_perm rand k l).length_eq

theorem shuffle_length {α : Type} (rand : Nat → Nat) (l : List α) :
    (shuffle rand l).length = l.length :=
  (shuffle_perm rand l).length_eq

/-- `shuffleGo` with bound `k` only touches positions `≤ k`. -/
theorem shuffleGo_getElem?_high {α : Type} (rand : Nat → Nat) :
    ∀ (k : Nat) (l : List α) (m : Nat), k < m →
      (shuffleGo rand k l)[m]? = l[m]?
  | 0, _, _, _ => rfl
  | Nat.succ k, l, m, hm => by
      have h1 := shuffleGo_getElem?_high rand k
        (listSwap l (k + 1) (rand (k + 1) % (k + 2))) m (Nat.lt_of_succ_lt hm)
      have h2 : (listSwap l (k + 1) (rand (k + 1) % (k + 2)))[m]? = l[m]? := by
        apply listSwap_getElem?_other
        · exact Nat.ne_of_gt hm
        · have : rand (k + 1) % (k + 2) < k + 2 := Nat.mod_lt _ (Nat.succ_pos _)
          omega
      exact h1.trans h2

/-- `shuffleGo rand k` depends on `rand` only at indices `1..k`. -/
theorem shuffleGo_congr {α : Type} {c c' : Nat → Nat} :
    ∀ (k : Nat) (l : List α), (∀ i, 1 ≤ i → i ≤ k → c i = c' i) →
      shuffleGo c k l = shuffleGo c' k l
  | 0, _, _ => rfl
  | Nat.succ k, l, h => by
      unfold shuffleGo
      rw [h (k + 1) (Nat.succ_le_succ (Nat.zero_le _)) (Nat.le_refl _)]
      exact shuffleGo_congr k _ (fun i h1 h2 => h i h1 (Nat.le_succ_of_le h2))

/-- Removing the element at a valid index is, up to permutation, removing
one copy of that element. -/
theorem perm_cons_eraseIdx {α : Type} :
    ∀ (l : List α) (i : Nat) (w : α), l[i]? = some w →
      l.Perm (w :: l.eraseIdx i)
  | [], _, _, h => by simp at h
  | x :: t, 0, w, h => by
      simp only [List.getElem?_cons_zero, Option.some.injEq] at h
      subst h
      rfl
  | x :: t, Nat.succ i, w, h => by
      simp only [List.getElem?_cons_succ] at h
      have ih := perm_cons_eraseIdx t i w h
      have h1 : (x :: t).eraseIdx (i + 1) = x :: t.eraseIdx i := rfl
      rw [h1]
      exact (ih.cons x).trans (List.Perm.swap w x _)

/-! ### Characterization of the constructor and of `getNextWord` -/

theorem make_eq_ok {α : Type} (rand : Nat → Nat) {words : List α}
    (h : words ≠ []) :
    make rand words = Except.ok
      { allWords := words
        remainingWords := shuffle rand words
        wordsSpoken := 0
        currentWord := none } := by
  simp only [make, makeOpt]
  rw [if_neg (by simpa using h)]

theorem make_ok_inv {α : Type} {rand : Nat → Nat} {words : List α}
    {s : PracticeSession α} (h : make rand words = Except.ok s) :
    words ≠ [] ∧ s = { allWords := words
                       remainingWords := shuffle rand words
                       wordsSpoken := 0
                       currentWord := none } := by
  simp only [make, makeOpt] at h
  by_cases hw : words.length = 0
  · rw [if_pos hw] at h
    exact absurd h (by simp)
  · rw [if_neg hw] at h
    refine ⟨fun hnil => hw (by simp [hnil]), ?_⟩
    exact (Except.ok.inj h).symm

/-- `getNextWord` on a non-empty pool: splice out the random index. -/
theorem getNextWord_ne_nil {α : Type} (rand : Nat → Nat)
    (s : PracticeSession α) (h : s.remainingWords ≠ []) :
    getNextWord rand s =
      (s.remainingWords[rand 0 % s.remainingWords.length]?,
        { allWords := s.allWords
          remainingWords :=
            s.remainingWords.eraseIdx (rand 0 % s.remainingWords.length)
          wordsSpoken := s.wordsSpoken + 1
          currentWord :=
            s.remainingWords[rand 0 % s.remainingWords.length]? }) := by
  have hlen : 0 < s.remainingWords.length := List.length_pos.mpr h
  have hidx : rand 0 % s.remainingWords.length < s.remainingWords.length :=
    Nat.mod_lt _ hlen
  have hempty : s.remainingWords.isEmpty = false := by
    cases hr : s.remainingWords with
    | nil => exact absurd hr h
    | cons x t => rfl
  obtain ⟨w, hw⟩ : ∃ w, s.remainingWords[rand 0 % s.remainingWords.length]? = some w :=
    ⟨_, List.getElem?_eq_getElem hidx⟩
  simp only [getNextWord, hempty, Bool.false_eq_true, if_false, hw]

/-- `getNextWord` on an empty pool with non-empty `allWords`: reshuffle,
then splice out the random index from the fresh pool. -/
theorem getNextWord_nil {α : Type} (rand : Nat → Nat)
    (s : PracticeSession α) (h : s.remainingWords = [])
    (ha : s.allWords ≠ []) :
    getNextWord rand s =
      ((shuffle rand s.allWords)[rand 0 % (shuffle rand s.allWords).length]?,
        { allWords := s.allWords
          remainingWords :=
            (shuffle rand s.allWords).eraseIdx
              (rand 0 % (shuffle rand s.allWords).length)
          wordsSpoken := s.wordsSpoken + 1
          currentWord :=
            (shuffle rand s.allWords)[rand 0 % (shuffle rand s.allWords).length]? }) := by
  have hlen : 0 < (shuffle rand s.allWords).length := by
    rw [shuffle_length]
    exact List.length_pos.mpr ha
  have hidx : rand 0 % (shuffle rand s.allWords).length <
      (shuffle rand s.allWords).length := Nat.mod_lt _ hlen
  have hempty : s.remainingWords.isEmpty = true := by rw [h]; rfl
  obtain ⟨w, hw⟩ :
      ∃ w, (shuffle rand s.allWords)[rand 0 % (shuffle rand s.allWords).length]? = some w :=
    ⟨_, List.getElem?_eq_getElem hidx⟩
  simp only [getNextWord, hempty, if_true, hw]

/-- `getNextWord` never changes `allWords`. -/
theorem getNextWord_allWords {α : Type} (rand : Nat → Nat)
    (s : PracticeSession α) :
    (getNextWord rand s).2.allWords = s.allWords := by
  simp only [getNextWord]
  split <;> (split <;> rfl)

/-- From a state with non-empty `allWords`, `getNextWord` always returns
an actual word. -/
theorem getNextWord_isSome {α : Type} (rand : Nat → Nat)
    (s : PracticeSession α) (ha : s.allWords ≠ []) :
    ((getNextWord rand s).1).isSome = true := by
  by_cases h : s.remainingWords = []
  · rw [getNextWord_nil rand s h ha]
    have hlen : 0 < (shuffle rand s.allWords).length := by
      rw [shuffle_length]
      exact List.length_pos.mpr ha
    simp [List.getElem?_eq_getElem (Nat.mod_lt (rand 0) hlen)]
  · rw [getNextWord_ne_nil rand s h]
    have hlen : 0 < s.remainingWords.length := List.length_pos.mpr h
    simp [List.getElem?_eq_getElem (Nat.mod_lt (rand 0) hlen)]

/-! ### Draining a pool and running a full cycle -/

/-- Drawing exactly as many words as the pool holds drains the pool:
the results are genuine words forming a permutation of the pool,
`allWords` is untouched, and `wordsSpoken` grows by the pool size. -/
theorem drawN_drain {α : Type} :
    ∀ (k : Nat) (rands : Nat → Nat → Nat) (s : PracticeSession α),
      s.remainingWords.length = k →
      ∃ ws : List α,
        (drawN rands k s).1 = ws.map some ∧
        ws.Perm s.remainingWords ∧
        (drawN rands k s).2.allWords = s.allWords ∧
        (drawN rands k s).2.remainingWords = [] ∧
        (drawN rands k s).2.wordsSpoken = s.wordsSpoken + k := by
  intro k
  induction k with
  | zero =>
    intro rands s hlen
    refine ⟨[], rfl, ?_, rfl, ?_, rfl⟩
    · rw [List.length_eq_zero.mp hlen]
    · exact List.length_eq_zero.mp hlen
  | succ k ih =>
    intro rands s hlen
    have hne : s.remainingWords ≠ [] := by
      intro hnil
      rw [hnil] at hlen
      exact Nat.succ_ne_zero k hlen.symm
    have hpos : 0 < s.remainingWords.length := List.length_pos.mpr hne
    have hidx : rands 0 0 % s.remainingWords.length < s.remainingWords.length :=
      Nat.mod_lt _ hpos
    obtain ⟨w, hw⟩ :
        ∃ w, s.remainingWords[rands 0 0 % s.remainingWords.length]? = some w :=
      ⟨_, List.getElem?_eq_getElem hidx⟩
    have hstep := getNextWord_ne_nil (rands 0) s hne
    rw [hw] at hstep
    have herase :
        (s.remainingWords.eraseIdx
          (rands 0 0 % s.remainingWords.length)).length = k := by
      rw [List.length_eraseIdx, if_pos hidx, hlen]
      omega
    obtain ⟨ws₂, hres, hperm, hall, hrem, hcount⟩ :=
      ih (fun m => rands (m + 1))
        { allWords := s.allWords
          remainingWords :=
            s.remainingWords.eraseIdx (rands 0 0 % s.remainingWords.length)
          wordsSpoken := s.wordsSpoken + 1
          currentWord := some w } herase
    refine ⟨w :: ws₂, ?_, ?_, ?_, ?_, ?_⟩
    · simp only [drawN, hstep, hres, List.map_cons]
    · have h1 : (w :: ws₂).Perm
          (w :: s.remainingWords.eraseIdx (rands 0 0 % s.remainingWords.length)) :=
        hperm.cons w
      exact h1.trans (perm_cons_eraseIdx s.remainingWords _ w hw).symm
    · simp only [drawN, hstep]
      exact hall
    · simp only [drawN, hstep]
      exact hrem
    · simp only [drawN, hstep]
      rw [hcount]
      show s.wordsSpoken + 1 + k = s.wordsSpoken + (k + 1)
      omega

/-- A full cycle starting at a reshuffle point (empty pool): drawing
`allWords.length` words yields a permutation of `allWords` and ends with
an empty pool again. -/
theorem drawN_cycle {α : Type} (rands : Nat → Nat → Nat)
    (s : PracticeSession α) (h : s.remainingWords = [])
    (ha : s.allWords ≠ []) :
    ∃ ws : List α,
      (drawN rands s.allWords.length s).1 = ws.map some ∧
      ws.Perm s.allWords ∧
      (drawN rands s.allWords.length s).2.allWords = s.allWords ∧
      (drawN rands s.allWords.length s).2.remainingWords = [] ∧
      (drawN rands s.allWords.length s).2.wordsSpoken =
        s.wordsSpoken + s.allWords.length := by
  have hpos : 0 < s.allWords.length := List.length_pos.mpr ha
  obtain ⟨n, hn⟩ : ∃ n, s.allWords.length = n + 1 :=
    ⟨s.allWords.length - 1, by omega⟩
  have hplen : (shuffle (rands 0) s.allWords).length = n + 1 := by
    rw [shuffle_length, hn]
  have hpidx : rands 0 0 % (shuffle (rands 0) s.allWords).length <
      (shuffle (rands 0) s.allWords).length := by
    rw [hplen]
    exact Nat.mod_lt _ (Nat.succ_pos n)
  obtain ⟨w, hw⟩ :
      ∃ w, (shuffle (rands 0) s.allWords)[rands 0 0 %
        (shuffle (rands 0) s.allWords).length]? = some w :=
    ⟨_, List.getElem?_eq_getElem hpidx⟩
  have hstep := getNextWord_nil (rands 0) s h ha
  rw [hw] at hstep
  have herase :
      ((shuffle (rands 0) s.allWords).eraseIdx
        (rands 0 0 % (shuffle (rands 0) s.allWords).length)).length = n := by
    rw [List.length_eraseIdx, if_pos hpidx, hplen]
    omega
  obtain ⟨ws₂, hres, hperm, hall, hrem, hcount⟩ :=
    drawN_drain n (fun m => rands (m + 1))
      { allWords := s.allWords
        remainingWords :=
          (shuffle (rands 0) s.allWords).eraseIdx
            (rands 0 0 % (shuffle (rands 0) s.allWords).length)
        wordsSpoken := s.wordsSpoken + 1
        currentWord := some w } herase
  refine ⟨w :: ws₂, ?_, ?_, ?_, ?_, ?_⟩
  · rw [hn]
    simp only [drawN, hstep, hres, List.map_cons]
  · have h1 : (w :: ws₂).Perm
        (w :: (shuffle (rands 0) s.allWords).eraseIdx
          (rands 0 0 % (shuffle (rands 0) s.allWords).length)) :=
      hperm.cons w
    have h2 := (perm_cons_eraseIdx (shuffle (rands 0) s.allWords) _ w hw).symm
    exact (h1.trans h2).trans (shuffle_perm (rands 0) s.allWords)
  · rw [hn]
    simp only [drawN, hstep]
    exact hall
  · rw [hn]
    simp only [drawN, hstep]
    exact hrem
  · rw [hn]
    simp only [drawN, hstep]
    rw [hcount]
    show s.wordsSpoken + 1 + n = s.wordsSpoken + (n + 1)
    omega

end PracticeSession

/-! ### Uniformity of the Fisher-Yates shuffle -/

namespace PracticeSession

/-- Indices of a duplicate-free list are determined by the stored value. -/
theorem nodup_getElem?_inj {α : Type} {l : List α} (hnd : l.Nodup)
    {i j : Nat} {v : α} (hi : l[i]? = some v) (hj : l[j]? = some v) :
    i = j := by
  rcases List.getElem?_eq_some.mp hi with ⟨hil, hiv⟩
  rcases List.getElem?_eq_some.mp hj with ⟨hjl, hjv⟩
  exact (List.Nodup.getElem_inj_iff hnd).mp (hiv.trans hjv.symm)

/-- Existence and uniqueness of the canonical choice vector producing a
given target ordering, generalized over the loop bound `k`: if the input
is duplicate-free and input and target agree strictly above position `k`,
exactly one canonical choice vector for `1..k` turns the input into the
target. -/
theorem shuffleGo_existsUnique {α : Type} :
    ∀ (k : Nat) (l l' : List α), l.Nodup → l'.Perm l →
      (∀ m, k < m → l[m]? = l'[m]?) → k < l.length →
      ∃! c : Nat → Nat, Canonical k c ∧ shuffleGo c k l = l' := by
  intro k
  induction k with
  | zero =>
    intro l l' hnd hperm hagree hk
    have heql : l = l' := by
      cases l with
      | nil => simp at hk
      | cons a t =>
        cases l' with
        | nil =>
          have := hperm.length_eq
          simp at this
        | cons b t' =>
          have ht : t = t' := by
            apply List.ext_getElem?
            intro n
            have := hagree (n + 1) (Nat.succ_pos n)
            simpa using this
          subst ht
          have hb : b ∈ a :: t := hperm.subset (List.mem_cons_self b t)
          rcases List.mem_cons.mp hb with hba | hbt
          · rw [hba]
          · have hnd' : (b :: t).Nodup := hperm.symm.nodup hnd
            exact absurd hbt (List.nodup_cons.mp hnd').1
    refine ⟨fun _ => 0, ⟨⟨fun i _ _ => Nat.zero_le i, fun i _ => rfl⟩, heql⟩, ?_⟩
    rintro c₁ ⟨⟨_, h₁b⟩, _⟩
    funext i
    exact h₁b i (by omega)
  | succ k ih =>
    intro l l' hnd hperm hagree hk
    have hlen : l'.length = l.length := hperm.length_eq
    have hk' : k + 1 < l'.length := by omega
    obtain ⟨v, hv⟩ : ∃ v, l'[k + 1]? = some v :=
      ⟨_, List.getElem?_eq_getElem hk'⟩
    have hnd' : l'.Nodup := hperm.symm.nodup hnd
    have hvl : v ∈ l := hperm.subset (List.getElem?_mem hv)
    obtain ⟨j₀, hj₀⟩ : ∃ j₀, l[j₀]? = some v := List.getElem?_of_mem hvl
    have hj₀lt : j₀ < l.length := (List.getElem?_eq_some.mp hj₀).1
    have hj₀le : j₀ ≤ k + 1 := by
      by_contra hgt
      push_neg at hgt
      have h1 : l'[j₀]? = some v := (hagree j₀ hgt) ▸ hj₀
      have h2 : j₀ = k + 1 := nodup_getElem?_inj hnd' h1 hv
      omega
    have hl₂perm : (listSwap l (k + 1) j₀).Perm l := listSwap_perm l (k + 1) j₀
    have hl₂nd : (listSwap l (k + 1) j₀).Nodup := hl₂perm.symm.nodup hnd
    have hperm₂ : l'.Perm (listSwap l (k + 1) j₀) := hperm.trans hl₂perm.symm
    have hswapat : (listSwap l (k + 1) j₀)[k + 1]? = l[j₀]? :=
      listSwap_getElem?_left hk hj₀lt
    have hagree₂ : ∀ m, k < m → (listSwap l (k + 1) j₀)[m]? = l'[m]? := by
      intro m hm
      by_cases hm1 : m = k + 1
      · subst hm1
        rw [hswapat, hj₀, hv]
      · have hm2 : k + 1 < m := by omega
        have h3 : (listSwap l (k + 1) j₀)[m]? = l[m]? :=
          listSwap_getElem?_other (fun h => hm1 h) (by omega)
        rw [h3]
        exact hagree m hm2
    have hk₂ : k < (listSwap l (k + 1) j₀).length := by
      rw [listSwap_length]
      omega
    obtain ⟨c', ⟨hc'can, hc'eq⟩, hc'uniq⟩ :=
      ih (listSwap l (k + 1) j₀) l' hl₂nd hperm₂ hagree₂ hk₂
    refine ⟨fun i => if i = k + 1 then j₀ else c' i, ⟨⟨?_, ?_⟩, ?_⟩, ?_⟩
    · intro i h1 h2
      by_cases hi : i = k + 1
      · subst hi
        simpa using hj₀le
      · show (if i = k + 1 then j₀ else c' i) ≤ i
        rw [if_neg hi]
        exact hc'can.1 i h1 (by omega)
    · intro i hi
      have hine : i ≠ k + 1 := by omega
      show (if i = k + 1 then j₀ else c' i) = 0
      rw [if_neg hine]
      exact hc'can.2 i (by omega)
    · show shuffleGo (fun i => if i = k + 1 then j₀ else c' i) (k + 1) l = l'
      unfold shuffleGo
      have hstep1 : (fun i => if i = k + 1 then j₀ else c' i) (k + 1) % (k + 1 + 1) = j₀ := by
        show (if k + 1 = k + 1 then j₀ else c' (k + 1)) % (k + 1 + 1) = j₀
        rw [if_pos rfl]
        exact Nat.mod_eq_of_lt (by omega)
      rw [hstep1]
      rw [shuffleGo_congr k (listSwap l (k + 1) j₀)
        (fun i h1 h2 => by
          show (if i = k + 1 then j₀ else c' i) = c' i
          rw [if_neg (by omega)])]
      exact hc'eq
    · rintro c₁ ⟨⟨h₁a, h₁b⟩, heq₁⟩
      have hj₁le : c₁ (k + 1) ≤ k + 1 := h₁a (k + 1) (by omega) (Nat.le_refl _)
      unfold shuffleGo at heq₁
      rw [Nat.mod_eq_of_lt (by omega)] at heq₁
      have hpos : (shuffleGo c₁ k (listSwap l (k + 1) (c₁ (k + 1))))[k + 1]? =
          (listSwap l (k + 1) (c₁ (k + 1)))[k + 1]? :=
        shuffleGo_getElem?_high c₁ k _ (k + 1) (Nat.lt_succ_self k)
      have hj₁lt : c₁ (k + 1) < l.length := by omega
      have hswapat₁ : (listSwap l (k + 1) (c₁ (k + 1)))[k + 1]? = l[c₁ (k + 1)]? :=
        listSwap_getElem?_left hk hj₁lt
      have hlv : l[c₁ (k + 1)]? = some v := by
        rw [← hswapat₁, ← hpos, heq₁, hv]
      have hj₁j₀ : c₁ (k + 1) = j₀ := nodup_getElem?_inj hnd hlv hj₀
      rw [hj₁j₀] at heq₁
      have hcan₁' : Canonical k (fun i => if i = k + 1 then 0 else c₁ i) := by
        constructor
        · intro i h1 h2
          show (if i = k + 1 then 0 else c₁ i) ≤ i
          rw [if_neg (by omega)]
          exact h₁a i h1 (by omega)
        · intro i hi
          show (if i = k + 1 then 0 else c₁ i) = 0
          by_cases hik : i = k + 1
          · rw [if_pos hik]
          · rw [if_neg hik]
            exact h₁b i (by omega)
      have heq₁' : shuffleGo (fun i => if i = k + 1 then 0 else c₁ i) k
          (listSwap l (k + 1) j₀) = l' := by
        rw [shuffleGo_congr k (listSwap l (k + 1) j₀)
          (fun i h1 h2 => by
            show (if i = k + 1 then 0 else c₁ i) = c₁ i
            rw [if_neg (by omega)])]
        exact heq₁
      have hcc : (fun i => if i = k + 1 then 0 else c₁ i) = c' :=
        hc'uniq _ ⟨hcan₁', heq₁'⟩
      funext i
      show c₁ i = (if i = k + 1 then j₀ else c' i)
      by_cases hi : i = k + 1
      · subst hi
        rw [if_pos rfl]
        exact hj₁j₀
      · rw [if_neg hi]
        have hcf := congrFun hcc i
        simp only [if_neg hi] at hcf
        exact hcf

end PracticeSession

/-! ### Further helper lemmas for the claim theorems -/

namespace PracticeSession

theorem shuffleGo_eq_fisherYatesSpec {α : Type} (c : Nat → Nat) :
    ∀ (k : Nat) (l : List α),
      shuffleGo c k l = fisherYatesSpec (fun i => c i % (i + 1)) k l
  | 0, _ => rfl
  | Nat.succ k, _l => shuffleGo_eq_fisherYatesSpec c k _

theorem getNextWord_wordsSpoken {α : Type} (rand : Nat → Nat)
    (s : PracticeSession α) :
    (getNextWord rand s).2.wordsSpoken = s.wordsSpoken + 1 := by
  simp only [getNextWord]
  split <;> (split <;> rfl)

/-- After `getNextWord`, the stored `currentWord` is exactly the returned
word. -/
theorem getNextWord_currentWord {α : Type} (rand : Nat → Nat)
    (s : PracticeSession α) :
    (getNextWord rand s).2.currentWord = (getNextWord rand s).1 := by
  simp only [getNextWord]
  split <;> (split <;> rfl)

/-- `repeatN` returns the current word over and over and never changes the
state. -/
theorem repeatN_eq {α : Type} :
    ∀ (m : Nat) (s : PracticeSession α),
      repeatN m s = (List.replicate m s.currentWord, s)
  | 0, _ => rfl
  | Nat.succ m, s => by
      simp only [repeatN, getCurrentWord, repeatN_eq m s, List.replicate_succ]

theorem drawN_allWords {α : Type} :
    ∀ (k : Nat) (rands : Nat → Nat → Nat) (s : PracticeSession α),
      (drawN rands k s).2.allWords = s.allWords
  | 0, _, _ => rfl
  | Nat.succ k, rands, s => by
      simp only [drawN]
      rw [drawN_allWords k (fun m => rands (m + 1)) (getNextWord (rands 0) s).2]
      exact getNextWord_allWords (rands 0) s

/-- With a non-empty word list every draw in a run returns an actual
word. -/
theorem drawN_results_isSome {α : Type} :
    ∀ (k : Nat) (rands : Nat → Nat → Nat) (s : PracticeSession α),
      s.allWords ≠ [] → ∀ o ∈ (drawN rands k s).1, o.isSome = true := by
  intro k
  induction k with
  | zero =>
    intro rands s _ o ho
    simp [drawN] at ho
  | succ k ih =>
    intro rands s ha o ho
    simp only [drawN, List.mem_cons] at ho
    rcases ho with ho | ho
    · rw [ho]
      exact getNextWord_isSome (rands 0) s ha
    · refine ih (fun m => rands (m + 1)) (getNextWord (rands 0) s).2 ?_ o ho
      rw [getNextWord_allWords]
      exact ha

theorem eraseIdx_length_le {α : Type} (l : List α) (i : Nat) :
    (l.eraseIdx i).length ≤ l.length := by
  rw [List.length_eraseIdx]
  split <;> omega

/-- `getNextWord` keeps the pool within the word-list size. -/
theorem getNextWord_remaining_le {α : Type} (rand : Nat → Nat)
    (s : PracticeSession α)
    (hInv : s.remainingWords.length ≤ s.allWords.length) :
    (getNextWord rand s).2.remainingWords.length ≤
      (getNextWord rand s).2.allWords.length := by
  rw [getNextWord_allWords]
  have hpool : (if s.remainingWords.isEmpty then shuffle rand s.allWords
      else s.remainingWords).length ≤ s.allWords.length := by
    split
    · rw [shuffle_length]
    · exact hInv
  simp only [getNextWord]
  split
  · exact le_trans (eraseIdx_length_le _ _) hpool
  · exact hpool

theorem applyOp_allWords {α : Type} (op : Op) (s : PracticeSession α) :
    (applyOp op s).allWords = s.allWords := by
  cases op with
  | next rand => exact getNextWord_allWords rand s
  | repeatWord => rfl
  | resetOp rand => rfl
  | totalWords => rfl
  | spoken => rfl
  | remainingCount => rfl
  | hasCurrent => rfl

theorem applyOp_remaining_le {α : Type} (op : Op) (s : PracticeSession α)
    (hInv : s.remainingWords.length ≤ s.allWords.length) :
    (applyOp op s).remainingWords.length ≤ (applyOp op s).allWords.length := by
  cases op with
  | next rand => exact getNextWord_remaining_le rand s hInv
  | repeatWord => exact hInv
  | resetOp rand =>
    show (shuffle rand s.allWords).length ≤ s.allWords.length
    rw [shuffle_length]
  | totalWords => exact hInv
  | spoken => exact hInv
  | remainingCount => exact hInv
  | hasCurrent => exact hInv

theorem applyOps_allWords {α : Type} :
    ∀ (ops : List Op) (s : PracticeSession α),
      (applyOps ops s).allWords = s.allWords
  | [], _ => rfl
  | op :: rest, s => by
      show (applyOps rest (applyOp op s)).allWords = s.allWords
      rw [applyOps_allWords rest (applyOp op s), applyOp_allWords]

theorem applyOps_remaining_le {α : Type} :
    ∀ (ops : List Op) (s : PracticeSession α),
      s.remainingWords.length ≤ s.allWords.length →
      (applyOps ops s).remainingWords.length ≤
        (applyOps ops s).allWords.length
  | [], _, hInv => hInv
  | op :: rest, s, hInv =>
      applyOps_remaining_le rest (applyOp op s) (applyOp_remaining_le op s hInv)

/-- The "has a current word" flag after an operation sequence is exactly
the sequence-level flag `hasNextSinceReset`, relative to the starting
flag. -/
theorem applyOps_hasCurrent {α : Type} :
    ∀ (ops : List Op) (s : PracticeSession α) (b : Bool),
      s.allWords ≠ [] → hasCurrentWord s = b →
      hasCurrentWord (applyOps ops s) =
        ops.foldl
          (fun b op =>
            match op with
            | Op.next _ => true
            | Op.resetOp _ => false
            | _ => b)
          b
  | [], _, _, _, hb => hb
  | op :: rest, s, b, ha, hb => by
      show hasCurrentWord (applyOps rest (applyOp op s)) = _
      have ha' : (applyOp op s).allWords ≠ [] := by
        rw [applyOp_allWords]
        exact ha
      cases op with
      | next rand =>
        refine applyOps_hasCurrent rest _ true ha' ?_
        show ((getNextWord rand s).2).currentWord.isSome = true
        rw [getNextWord_currentWord]
        exact getNextWord_isSome rand s ha
      | repeatWord => exact applyOps_hasCurrent rest _ b ha' hb
      | resetOp rand => exact applyOps_hasCurrent rest _ false ha' rfl
      | totalWords => exact applyOps_hasCurrent rest _ b ha' hb
      | spoken => exact applyOps_hasCurrent rest _ b ha' hb
      | remainingCount => exact applyOps_hasCurrent rest _ b ha' hb
      | hasCurrent => exact applyOps_hasCurrent rest _ b ha' hb

/-- The uniqueness theorem specialized to the full shuffle. -/
theorem shuffle_existsUnique {α : Type} (l l' : List α) (hnd : l.Nodup)
    (hperm : l'.Perm l) :
    ∃! c : Nat → Nat, Canonical (l.length - 1) c ∧ shuffle c l = l' := by
  by_cases hnil : l = []
  · subst hnil
    have hl' : l' = [] := by
      have := hperm.length_eq
      simpa using List.length_eq_zero.mp (by simpa using this)
    subst hl'
    refine ⟨fun _ => 0, ⟨⟨fun i _ _ => Nat.zero_le i, fun i _ => rfl⟩, rfl⟩, ?_⟩
    rintro c₁ ⟨⟨_, h₁b⟩, _⟩
    funext i
    refine h₁b i ?_
    cases i with
    | zero => exact Or.inl rfl
    | succ n => exact Or.inr (Nat.succ_pos n)
  · have hpos : 0 < l.length := List.length_pos.mpr hnil
    have hagree : ∀ m, l.length - 1 < m → l[m]? = l'[m]? := by
      intro m hm
      have h1 : l[m]? = none := List.getElem?_eq_none (by omega)
      have h2 : l'[m]? = none := List.getElem?_eq_none (by rw [hperm.length_eq]; omega)
      rw [h1, h2]
    have := shuffleGo_existsUnique (l.length - 1) l l' hnd hperm hagree (by omega)
    simpa only [shuffle] using this

end PracticeSession

/-! ## Claim theorems -/

open PracticeSession

/-- C1: for every non-empty word list `W` of size `n`, starting from a
freshly constructed scheduler or from any reshuffle point (empty pool),
`n` successive `getNextWord` calls return actual words forming a multiset
exactly equal to the multiset of `W`, and every returned word is an
element of `allWords`. -/
theorem C1_cycle_is_permutation {α : Type} (s : PracticeSession α)
    (rands : Nat → Nat → Nat) (ha : s.allWords ≠ [])
    (hstart : (∃ (rand : Nat → Nat) (ws0 : List α),
        make rand ws0 = Except.ok s) ∨ s.remainingWords = []) :
    ∃ ws : List α,
      (drawN rands s.allWords.length s).1 = ws.map some ∧
      ws.Perm s.allWords ∧
      ∀ w ∈ ws, w ∈ s.allWords := by
  rcases hstart with ⟨rand, ws0, hmk⟩ | hempty
  · obtain ⟨hne, hs⟩ := make_ok_inv hmk
    subst hs
    have hlen : (shuffle rand ws0).length = ws0.length := shuffle_length rand ws0
    obtain ⟨ws, hres, hperm, _, _, _⟩ :=
      drawN_drain ws0.length rands
        { allWords := ws0
          remainingWords := shuffle rand ws0
          wordsSpoken := 0
          currentWord := none } hlen
    have hperm' : ws.Perm ws0 := hperm.trans (shuffle_perm rand ws0)
    exact ⟨ws, hres, hperm', fun w hw => hperm'.subset hw⟩
  · obtain ⟨ws, hres, hperm, _, _, _⟩ := drawN_cycle rands s hempty ha
    exact ⟨ws, hres, hperm, fun w hw => hperm.subset hw⟩

/-- Witness for C1 at a concrete reshuffle point. -/
theorem C1_cycle_is_permutation_witness :
    ∃ ws : List Nat,
      (drawN (fun _ _ => 0) 2
        { allWords := [1, 2]
          remainingWords := []
          wordsSpoken := 0
          currentWord := none }).1 = ws.map some ∧
      ws.Perm [1, 2] ∧
      ∀ w ∈ ws, w ∈ ([1, 2] : List Nat) :=
  C1_cycle_is_permutation
    { allWords := [1, 2]
      remainingWords := []
      wordsSpoken := 0
      currentWord := none }
    (fun _ _ => 0) (by decide) (Or.inr rfl)

/-- C2: constructing a scheduler with an empty word list fails with the
`InvalidSessionConfiguration` error carrying the "cannot create practice
session with empty word list" message (the code writes it with a capital
C), and no scheduler value is produced. -/
theorem C2_empty_construction_fails {α : Type} (rand : Nat → Nat) :
    make rand ([] : List α) =
      Except.error (SessionError.invalidSessionConfiguration
        "Cannot create practice session with empty word list") ∧
    (make rand ([] : List α)).toOption = none :=
  ⟨rfl, rfl⟩

/-- C3: from a successfully constructed scheduler, every draw in any run
of `getNextWord` calls returns an actual word (the scheduler never runs
out), and after the first full cycle of `n = words.length` draws the pool
is empty and the next `n` draws again form a permutation of the word
list. -/
theorem C3_infinite_horizon {α : Type} (rand0 : Nat → Nat) (words : List α)
    (s0 : PracticeSession α) (hmk : make rand0 words = Except.ok s0)
    (k : Nat) (rands rands2 : Nat → Nat → Nat) (o : Option α)
    (ho : o ∈ (drawN rands k s0).1) :
    o.isSome = true ∧
    (drawN rands words.length s0).2.remainingWords = [] ∧
    ∃ ws2 : List α,
      (drawN rands2 words.length ((drawN rands words.length s0).2)).1 =
        ws2.map some ∧
      ws2.Perm words := by
  obtain ⟨hne, hs⟩ := make_ok_inv hmk
  have ha0 : s0.allWords ≠ [] := by rw [hs]; exact hne
  refine ⟨drawN_results_isSome k rands s0 ha0 o ho, ?_⟩
  have hlen : s0.remainingWords.length = words.length := by
    rw [hs]
    exact shuffle_length rand0 words
  have hwords : s0.allWords = words := by rw [hs]
  obtain ⟨ws1, _, _, hall1, hrem1, _⟩ :=
    drawN_drain s0.remainingWords.length rands s0 rfl
  rw [hlen] at hall1 hrem1
  refine ⟨hrem1, ?_⟩
  have ha1 : ((drawN rands words.length s0).2).allWords = words := by
    rw [hall1, hwords]
  obtain ⟨ws2, hres2, hperm2, _, _, _⟩ :=
    drawN_cycle rands2 ((drawN rands words.length s0).2) hrem1
      (by rw [ha1]; exact hne)
  rw [ha1] at hres2 hperm2
  exact ⟨ws2, hres2, hperm2⟩

/-- Witness for C3 on the word list `[1, 2]`. -/
theorem C3_infinite_horizon_witness :
    (some 2 : Option Nat).isSome = true ∧
    (drawN (fun _ _ => 0) 2
      { allWords := [1, 2]
        remainingWords := [2, 1]
        wordsSpoken := 0
        currentWord := none }).2.remainingWords = [] ∧
    ∃ ws2 : List Nat,
      (drawN (fun _ _ => 0) 2
        ((drawN (fun _ _ => 0) 2
          { allWords := [1, 2]
            remainingWords := [2, 1]
            wordsSpoken := 0
            currentWord := none }).2)).1 = ws2.map some ∧
      ws2.Perm [1, 2] :=
  C3_infinite_horizon (fun _ => 0) [1, 2]
    { allWords := [1, 2]
      remainingWords := [2, 1]
      wordsSpoken := 0
      currentWord := none }
    (by rfl) 3 (fun _ _ => 0) (fun _ _ => 0) (some 2) (by decide)

/-- C4: after a `getNextWord` call that returned `w`, any number of
`getCurrentWord` calls each return `w` and leave the whole state — in
particular `getWordsSpoken` and `getRemainingCount` — unchanged. -/
theorem C4_repeat_is_non_advancing {α : Type} (rand : Nat → Nat)
    (s s2 : PracticeSession α) (w : α) (m : Nat)
    (h : getNextWord rand s = (some w, s2)) :
    (repeatN m s2).1 = List.replicate m (some w) ∧
    (repeatN m s2).2 = s2 ∧
    getWordsSpoken (repeatN m s2).2 = getWordsSpoken s2 ∧
    getRemainingCount (repeatN m s2).2 = getRemainingCount s2 ∧
    ∀ o ∈ (repeatN m s2).1, o = some w := by
  have hcur : s2.currentWord = some w := by
    have h1 := getNextWord_currentWord rand s
    rw [h] at h1
    exact h1
  rw [repeatN_eq m s2, hcur]
  refine ⟨rfl, rfl, rfl, rfl, ?_⟩
  intro o ho
  exact List.eq_of_mem_replicate ho

/-- Witness for C4 with a one-word session and three repeat calls. -/
theorem C4_repeat_is_non_advancing_witness :
    (repeatN 3
      { allWords := [5]
        remainingWords := []
        wordsSpoken := 1
        currentWord := some 5 }).1 = List.replicate 3 (some (5 : Nat)) ∧
    (repeatN 3
      { allWords := [5]
        remainingWords := []
        wordsSpoken := 1
        currentWord := some 5 }).2 =
      { allWords := [5]
        remainingWords := []
        wordsSpoken := 1
        currentWord := some (5 : Nat) } ∧
    getWordsSpoken (repeatN 3
      { allWords := [5]
        remainingWords := []
        wordsSpoken := 1
        currentWord := some (5 : Nat) }).2 =
      getWordsSpoken
        { allWords := [5]
          remainingWords := []
          wordsSpoken := 1
          currentWord := some (5 : Nat) } ∧
    getRemainingCount (repeatN 3
      { allWords := [5]
        remainingWords := []
        wordsSpoken := 1
        currentWord := some (5 : Nat) }).2 =
      getRemainingCount
        { allWords := [5]
          remainingWords := []
          wordsSpoken := 1
          currentWord := some (5 : Nat) } ∧
    ∀ o ∈ (repeatN 3
      { allWords := [5]
        remainingWords := []
        wordsSpoken := 1
        currentWord := some (5 : Nat) }).1, o = some 5 :=
  C4_repeat_is_non_advancing (fun _ => 0)
    { allWords := [5]
      remainingWords := [5]
      wordsSpoken := 0
      currentWord := none }
    { allWords := [5]
      remainingWords := []
      wordsSpoken := 1
      currentWord := some 5 }
    5 3 (by decide)

/-- C5: `getWordsSpoken` starts at 0 after construction, increases by
exactly 1 on every `getNextWord`, is untouched by `getCurrentWord` and
every other accessor (which leave the whole state unchanged), never
decreases along any reset-free operation sequence, and returns to 0 via
`reset`. -/
theorem C5_monotonic_counter {α : Type} (rand : Nat → Nat)
    (s : PracticeSession α) (op : Op)
    (hop1 : ∀ r, op ≠ Op.next r) (hop2 : ∀ r, op ≠ Op.resetOp r)
    (ops : List Op) (hops : ∀ r, Op.resetOp r ∉ ops)
    (words : List α) (s0 : PracticeSession α)
    (hmk : make rand words = Except.ok s0) :
    getWordsSpoken (applyOp (Op.next rand) s) = getWordsSpoken s + 1 ∧
    applyOp op s = s ∧
    getWordsSpoken (applyOp (Op.resetOp rand) s) = 0 ∧
    getWordsSpoken s ≤ getWordsSpoken (applyOps ops s) ∧
    getWordsSpoken s0 = 0 := by
  refine ⟨getNextWord_wordsSpoken rand s, ?_, rfl, ?_, ?_⟩
  · cases op with
    | next r => exact absurd rfl (hop1 r)
    | repeatWord => rfl
    | resetOp r => exact absurd rfl (hop2 r)
    | totalWords => rfl
    | spoken => rfl
    | remainingCount => rfl
    | hasCurrent => rfl
  · clear hop1 hop2 hmk
    induction ops generalizing s with
    | nil => exact Nat.le_refl _
    | cons op rest ih =>
      have hstep : getWordsSpoken s ≤ getWordsSpoken (applyOp op s) := by
        cases op with
        | next r =>
          show s.wordsSpoken ≤ (getNextWord r s).2.wordsSpoken
          rw [getNextWord_wordsSpoken r s]
          exact Nat.le_succ _
        | repeatWord => exact Nat.le_refl _
        | resetOp r => exact absurd (List.mem_cons_self _ _) (hops r)
        | totalWords => exact Nat.le_refl _
        | spoken => exact Nat.le_refl _
        | remainingCount => exact Nat.le_refl _
        | hasCurrent => exact Nat.le_refl _
      refine Nat.le_trans hstep ?_
      exact ih (applyOp op s)
        (fun r hr => hops r (List.mem_cons_of_mem _ hr))
  · obtain ⟨_, hs⟩ := make_ok_inv hmk
    rw [hs]
    rfl

/-- Witness for C5 with a repeat-then-draw sequence. -/
theorem C5_monotonic_counter_witness :
    getWordsSpoken (applyOp (Op.next (fun _ => 0))
      ({ allWords := [1]
         remainingWords := [1]
         wordsSpoken := 2
         currentWord := some 1 } : PracticeSession Nat)) =
      getWordsSpoken
        ({ allWords := [1]
           remainingWords := [1]
           wordsSpoken := 2
           currentWord := some 1 } : PracticeSession Nat) + 1 ∧
    applyOp Op.repeatWord
      ({ allWords := [1]
         remainingWords := [1]
         wordsSpoken := 2
         currentWord := some 1 } : PracticeSession Nat) =
      { allWords := [1]
        remainingWords := [1]
        wordsSpoken := 2
        currentWord := some 1 } ∧
    getWordsSpoken (applyOp (Op.resetOp (fun _ => 0))
      ({ allWords := [1]
         remainingWords := [1]
         wordsSpoken := 2
         currentWord := some 1 } : PracticeSession Nat)) = 0 ∧
    getWordsSpoken
      ({ allWords := [1]
         remainingWords := [1]
         wordsSpoken := 2
         currentWord := some 1 } : PracticeSession Nat) ≤
      getWordsSpoken (applyOps [Op.repeatWord, Op.next (fun _ => 0)]
        { allWords := [1]
          remainingWords := [1]
          wordsSpoken := 2
          currentWord := some 1 }) ∧
    getWordsSpoken
      ({ allWords := [1]
         remainingWords := [1]
         wordsSpoken := 0
         currentWord := none } : PracticeSession Nat) = 0 :=
  C5_monotonic_counter (fun _ => 0)
    { allWords := [1]
      remainingWords := [1]
      wordsSpoken := 2
      currentWord := some 1 }
    Op.repeatWord
    (fun r h => Op.noConfusion h)
    (fun r h => Op.noConfusion h)
    [Op.repeatWord, Op.next (fun _ => 0)]
    (by
      intro r h
      rcases List.mem_cons.mp h with h1 | h1
      · exact Op.noConfusion h1
      · rcases List.mem_cons.mp h1 with h2 | h2
        · exact Op.noConfusion h2
        · exact List.not_mem_nil _ h2)
    [1]
    { allWords := [1]
      remainingWords := [1]
      wordsSpoken := 0
      currentWord := none }
    (by rfl)

/-- C6: before any draw — right after construction or right after a
`reset` — `getCurrentWord` returns the absent signal `none` without
failing and `hasCurrentWord` is `false`; `hasCurrentWord` is `false`
exactly when no current word is stored, it flips to `true` on a
`getNextWord` call, and over any operation sequence it equals the
"some draw happened since the last reset" flag. -/
theorem C6_pre_draw_repeat_absent {α : Type} (rand rand2 : Nat → Nat)
    (words : List α) (s0 s : PracticeSession α)
    (hmk : make rand words = Except.ok s0)
    (ha : s.allWords ≠ []) (ops : List Op) :
    getCurrentWord s0 = (none, s0) ∧
    hasCurrentWord s0 = false ∧
    getCurrentWord (reset rand2 s) = (none, reset rand2 s) ∧
    hasCurrentWord (reset rand2 s) = false ∧
    (hasCurrentWord s = false ↔ s.currentWord = none) ∧
    hasCurrentWord (getNextWord rand2 s).2 = true ∧
    hasCurrentWord (applyOps ops s0) = hasNextSinceReset ops := by
  obtain ⟨hne, hs⟩ := make_ok_inv hmk
  refine ⟨?_, ?_, rfl, rfl, ?_, ?_, ?_⟩
  · rw [hs]
    rfl
  · rw [hs]
    rfl
  · show s.currentWord.isSome = false ↔ s.currentWord = none
    cases s.currentWord with
    | none => simp
    | some w => simp
  · show ((getNextWord rand2 s).2).currentWord.isSome = true
    rw [getNextWord_currentWord]
    exact getNextWord_isSome rand2 s ha
  · refine applyOps_hasCurrent ops s0 false ?_ ?_
    · rw [hs]
      exact hne
    · rw [hs]
      rfl

/-- Witness for C6 after one draw and one repeat. -/
theorem C6_pre_draw_repeat_absent_witness :
    getCurrentWord
      ({ allWords := [1]
         remainingWords := [1]
         wordsSpoken := 0
         currentWord := none } : PracticeSession Nat) =
      (none,
        { allWords := [1]
          remainingWords := [1]
          wordsSpoken := 0
          currentWord := none }) ∧
    hasCurrentWord
      ({ allWords := [1]
         remainingWords := [1]
         wordsSpoken := 0
         currentWord := none } : PracticeSession Nat) = false ∧
    getCurrentWord (reset (fun _ => 0)
      ({ allWords := [1]
         remainingWords := []
         wordsSpoken := 5
         currentWord := some 1 } : PracticeSession Nat)) =
      (none, reset (fun _ => 0)
        { allWords := [1]
          remainingWords := []
          wordsSpoken := 5
          currentWord := some 1 }) ∧
    hasCurrentWord (reset (fun _ => 0)
      ({ allWords := [1]
         remainingWords := []
         wordsSpoken := 5
         currentWord := some 1 } : PracticeSession Nat)) = false ∧
    (hasCurrentWord
      ({ allWords := [1]
         remainingWords := []
         wordsSpoken := 5
         currentWord := some 1 } : PracticeSession Nat) = false ↔
      ({ allWords := [1]
         remainingWords := []
         wordsSpoken := 5
         currentWord := some 1 } : PracticeSession Nat).currentWord = none) ∧
    hasCurrentWord (getNextWord (fun _ => 0)
      ({ allWords := [1]
         remainingWords := []
         wordsSpoken := 5
         currentWord := some 1 } : PracticeSession Nat)).2 = true ∧
    hasCurrentWord (applyOps [Op.next (fun _ => 0), Op.repeatWord]
      { allWords := [1]
        remainingWords := [1]
        wordsSpoken := 0
        currentWord := none }) =
      hasNextSinceReset [Op.next (fun _ => 0), Op.repeatWord] :=
  C6_pre_draw_repeat_absent (fun _ => 0) (fun _ => 0) [1]
    { allWords := [1]
      remainingWords := [1]
      wordsSpoken := 0
      currentWord := none }
    { allWords := [1]
      remainingWords := []
      wordsSpoken := 5
      currentWord := some 1 }
    (by rfl) (by decide) [Op.next (fun _ => 0), Op.repeatWord]

/-- C7: `reset` produces exactly the state a fresh construction from the
same word list (and the same random source) produces: `make` succeeds on
`s.allWords` and returns precisely `reset rand s`, whose pool is a fresh
shuffle of `allWords`, whose counter is 0, whose current word is absent,
and whose `allWords` is unchanged. -/
theorem C7_reset_is_reconstruction {α : Type} (rand : Nat → Nat)
    (s : PracticeSession α) (ha : s.allWords ≠ []) :
    make rand s.allWords = Except.ok (reset rand s) ∧
    (reset rand s).allWords = s.allWords ∧
    (reset rand s).remainingWords = shuffle rand s.allWords ∧
    (reset rand s).wordsSpoken = 0 ∧
    (reset rand s).currentWord = none := by
  refine ⟨?_, rfl, rfl, rfl, rfl⟩
  rw [make_eq_ok rand ha]
  rfl

/-- Witness for C7 on a mid-session state. -/
theorem C7_reset_is_reconstruction_witness :
    make (fun _ => 0) [1, 2] =
      Except.ok (reset (fun _ => 0)
        ({ allWords := [1, 2]
           remainingWords := [2]
           wordsSpoken := 3
           currentWord := some 1 } : PracticeSession Nat)) ∧
    (reset (fun _ => 0)
      ({ allWords := [1, 2]
         remainingWords := [2]
         wordsSpoken := 3
         currentWord := some 1 } : PracticeSession Nat)).allWords = [1, 2] ∧
    (reset (fun _ => 0)
      ({ allWords := [1, 2]
         remainingWords := [2]
         wordsSpoken := 3
         currentWord := some 1 } : PracticeSession Nat)).remainingWords =
      shuffle (fun _ => 0) [1, 2] ∧
    (reset (fun _ => 0)
      ({ allWords := [1, 2]
         remainingWords := [2]
         wordsSpoken := 3
         currentWord := some 1 } : PracticeSession Nat)).wordsSpoken = 0 ∧
    (reset (fun _ => 0)
      ({ allWords := [1, 2]
         remainingWords := [2]
         wordsSpoken := 3
         currentWord := some 1 } : PracticeSession Nat)).currentWord = none :=
  C7_reset_is_reconstruction (fun _ => 0)
    { allWords := [1, 2]
      remainingWords := [2]
      wordsSpoken := 3
      currentWord := some 1 }
    (by decide)

/-- C8: `shuffle` implements the spec's Fisher-Yates loop (iterate `i`
from `n-1` down to `1`, draw `j` in `[0, i]`, swap positions `i` and
`j`): it equals the spec-modelled loop with the in-range draws
`rand i % (i + 1)`, its result is always a permutation of its input, and
for a duplicate-free input every target ordering arises from exactly one
canonical choice vector — so a uniform random source makes all `n!`
orderings equally probable. -/
theorem C8_shuffle_fisher_yates {α : Type} :
    (∀ (rand : Nat → Nat) (l : List α),
      shuffle rand l =
        fisherYatesSpec (fun i => rand i % (i + 1)) (l.length - 1) l) ∧
    (∀ (rand : Nat → Nat) (i : Nat), rand i % (i + 1) ≤ i) ∧
    (∀ (rand : Nat → Nat) (l : List α), (shuffle rand l).Perm l) ∧
    (∀ l l2 : List α, l.Nodup → l2.Perm l →
      ∃! c : Nat → Nat, Canonical (l.length - 1) c ∧ shuffle c l = l2) := by
  refine ⟨?_, ?_, shuffle_perm, shuffle_existsUnique⟩
  · intro rand l
    exact shuffleGo_eq_fisherYatesSpec rand (l.length - 1) l
  · intro rand i
    have := Nat.mod_lt (rand i) (show 0 < i + 1 from Nat.succ_pos i)
    omega

/-- Witness for C8: the unique canonical choice vector producing the
ordering `[2, 0, 1]` from `[0, 1, 2]`. -/
theorem C8_shuffle_fisher_yates_witness :
    ∃! c : Nat → Nat,
      Canonical 2 c ∧ shuffle c [0, 1, 2] = ([2, 0, 1] : List Nat) :=
  (C8_shuffle_fisher_yates (α := Nat)).2.2.2 [0, 1, 2] [2, 0, 1]
    (by decide) (by decide)

/-- C9: no operation ever mutates `allWords`, so `getTotalWords` is
constant over every operation sequence on a constructed scheduler, and
`getRemainingCount` never exceeds `getTotalWords`. -/
theorem C9_allWords_immutable {α : Type} (rand : Nat → Nat)
    (words : List α) (s0 : PracticeSession α)
    (hmk : make rand words = Except.ok s0) (ops : List Op) (op : Op)
    (s : PracticeSession α) :
    (applyOp op s).allWords = s.allWords ∧
    (applyOps ops s0).allWords = words ∧
    getTotalWords (applyOps ops s0) = words.length ∧
    getRemainingCount (applyOps ops s0) ≤ getTotalWords (applyOps ops s0) := by
  obtain ⟨hne, hs⟩ := make_ok_inv hmk
  have hall : (applyOps ops s0).allWords = words := by
    rw [applyOps_allWords ops s0, hs]
  refine ⟨applyOp_allWords op s, hall, ?_, ?_⟩
  · show (applyOps ops s0).allWords.length = words.length
    rw [hall]
  · show (applyOps ops s0).remainingWords.length ≤
      (applyOps ops s0).allWords.length
    refine applyOps_remaining_le ops s0 ?_
    rw [hs]
    show (shuffle rand words).length ≤ words.length
    rw [shuffle_length]

/-- Witness for C9 over a draw-repeat-reset sequence. -/
theorem C9_allWords_immutable_witness :
    (applyOp Op.repeatWord
      ({ allWords := [7]
         remainingWords := []
         wordsSpoken := 4
         currentWord := some 7 } : PracticeSession Nat)).allWords =
      ({ allWords := [7]
         remainingWords := []
         wordsSpoken := 4
         currentWord := some 7 } : PracticeSession Nat).allWords ∧
    (applyOps [Op.next (fun _ => 0), Op.repeatWord, Op.resetOp (fun _ => 0)]
      { allWords := [1, 2]
        remainingWords := [2, 1]
        wordsSpoken := 0
        currentWord := none }).allWords = [1, 2] ∧
    getTotalWords
      (applyOps [Op.next (fun _ => 0), Op.repeatWord, Op.resetOp (fun _ => 0)]
        { allWords := [1, 2]
          remainingWords := [2, 1]
          wordsSpoken := 0
          currentWord := none }) = ([1, 2] : List Nat).length ∧
    getRemainingCount
      (applyOps [Op.next (fun _ => 0), Op.repeatWord, Op.resetOp (fun _ => 0)]
        { allWords := [1, 2]
          remainingWords := [2, 1]
          wordsSpoken := 0
          currentWord := none }) ≤
      getTotalWords
        (applyOps [Op.next (fun _ => 0), Op.repeatWord, Op.resetOp (fun _ => 0)]
          { allWords := [1, 2]
            remainingWords := [2, 1]
            wordsSpoken := 0
            currentWord := none }) :=
  C9_allWords_immutable (fun _ => 0) [1, 2]
    { allWords := [1, 2]
      remainingWords := [2, 1]
      wordsSpoken := 0
      currentWord := none }
    (by rfl)
    [Op.next (fun _ => 0), Op.repeatWord, Op.resetOp (fun _ => 0)]
    Op.repeatWord
    { allWords := [7]
      remainingWords := []
      wordsSpoken := 4
      currentWord := some 7 }

/-- C10: constructing a scheduler with a null/undefined words argument
(modelled as `none`) fails with the same `InvalidSessionConfiguration`
error as an empty list, and no scheduler value is produced. -/
theorem C10_null_words_fails {α : Type} (rand : Nat → Nat) :
    makeOpt rand (none : Option (List α)) =
      Except.error (SessionError.invalidSessionConfiguration
        "Cannot create practice session with empty word list") ∧
    (makeOpt rand (none : Option (List α))).toOption = none :=
  ⟨rfl, rfl⟩
